import Mathlib

/-!
Verification of the script-handler orchestration engine: a shallow embedding of
the port pool, process runner lifecycle, release storage, release-set hooks,
the repository collection's release deletion, the Script and Service state
machines, shared-clone projection, and the reverse log reader, together with
theorems settling the specification claims.
-/

/-! ### Port pool (`script_handler/runner/port_service.py`) -/

namespace PortService

/-- Error raised when the pool is empty: `SortedSet.pop(0)` on an empty set. -/
inductive PortError where
  | exhausted
deriving DecidableEq

/-- `PortService._ports`: a `SortedSet` of available ports, modelled as the
underlying set of ports (a duplicate-free list; `pop(0)` takes the minimum). -/
structure Pool where
  ports : List ℕ
deriving DecidableEq

/-- `PortService.acquire_port`: `return self._ports.pop(0)` — removes and
returns the smallest member; raises on an empty set. -/
def acquire_port (p : Pool) : Except PortError (ℕ × Pool) :=
  match p.ports.min? with
  | none => .error .exhausted
  | some m => .ok (m, ⟨p.ports.erase m⟩)

/-- `PortService.release_port`: `self._ports.add(port)` (set insertion). -/
def release_port (p : Pool) (port : ℕ) : Pool :=
  ⟨p.ports.insert port⟩

end PortService

/-! ### Runner stop semantics (`script_handler/runner/runner_base.py`) -/

namespace RunnerBase

/-- Which stop signal `terminate`/`kill` sends to the process. -/
inductive StopSignal where
  | termSignal
  | killSignal
deriving DecidableEq

/-- How long the call waits for process exit after sending the signal:
`wait()` (unbounded) or `wait_for(timeout)` (bounded, raising on expiry). -/
inductive WaitBehavior where
  | waitUnbounded
  | waitBounded (timeout : ℚ)
deriving DecidableEq

/-- `Runner.terminate(timeout)`:
`if timeout: _terminate_impl(); wait_for(timeout) else: _terminate_impl(); wait()`.
The branch condition is Python truthiness of `Union[float,None]`, so `None`
and `0` both select the unbounded branch. -/
def terminate (timeout : Option ℚ) : StopSignal × WaitBehavior :=
  match timeout with
  | some t => if t != 0 then (.termSignal, .waitBounded t) else (.termSignal, .waitUnbounded)
  | none => (.termSignal, .waitUnbounded)

/-- `Runner.kill(timeout)`: same branch structure as `terminate`. -/
def kill (timeout : Option ℚ) : StopSignal × WaitBehavior :=
  match timeout with
  | some t => if t != 0 then (.killSignal, .waitBounded t) else (.killSignal, .waitUnbounded)
  | none => (.killSignal, .waitUnbounded)

end RunnerBase

/-! ### Release materialization (`script_handler/models/releases.py`, `Release`) -/

namespace ReleaseM

/-- The filesystem, abstracted to the set of paths that currently exist. -/
structure Disk where
  paths : Finset String
deriving DecidableEq

/-- A `Release`, reduced to its on-disk location `Release._path`. -/
structure Release where
  path : String
deriving DecidableEq

/-- `Release.loaded_on_disk`: `os.path.exists(self._path)`. -/
def loaded_on_disk (d : Disk) (r : Release) : Bool :=
  r.path ∈ d.paths

/-- `Release.load`: if already on disk, return; else
`repo.git_copy_tagged_version(tag_name, path)` checks the snapshot out, which
creates `path`. Returns the new disk and whether a checkout was performed. -/
def load (d : Disk) (r : Release) : Disk × Bool :=
  if loaded_on_disk d r then (d, false)
  else (⟨insert r.path d.paths⟩, true)

end ReleaseM

/-! ### Release set hooks (`script_handler/models/releases.py`, `Releases`) -/

namespace ReleasesM

/-- A release as held in `Releases._releases` (keyed by tag, with a disk path). -/
structure RelInfo where
  tag : String
  path : String
deriving DecidableEq

/-- The observable behavior of one registered delete hook: it either returns
normally or raises. -/
inductive HookOutcome where
  | ok
  | fails
deriving DecidableEq

/-- State touched by `Releases.delete_release`: the release map and the disk. -/
structure RelState where
  releases : List RelInfo
  disk : Finset String
deriving DecidableEq

/-- Result of `Releases.delete_release`: the state reached, and whether an
exception escaped the call. -/
structure DeleteResult where
  state : RelState
  raised : Bool
deriving DecidableEq

/-- Running `for hook in self._delete_hooks: hook(...)` with no exception
handler: the fan-out stops at (and propagates) the first raising hook. -/
def runHooks : List HookOutcome → Bool
  | [] => false
  | .ok :: rest => runHooks rest
  | .fails :: _ => true

/-- `Releases.delete_release`: return if the tag is absent; else delete the
map entry, fire the delete hooks in order, then `rel.unload()` (which
`shutil.rmtree`s the disk path). A raising hook propagates before `unload`. -/
def delete_release (hooks : List HookOutcome) (s : RelState) (rel : RelInfo) :
    DeleteResult :=
  if (s.releases.map RelInfo.tag).contains rel.tag then
    let s1 : RelState := { s with releases := s.releases.filter (fun r => r.tag ≠ rel.tag) }
    if runHooks hooks then ⟨s1, true⟩
    else ⟨{ s1 with disk := s1.disk.erase rel.path }, false⟩
  else ⟨s, false⟩

end ReleasesM

/-! ### Repository collection release deletion
(`script_handler/models/collections.py`, `RepositoryCollection.delete_release`) -/

namespace CollectionsM

/-- A runnable artifact as seen by `delete_release`: its identity, the
repository id behind its release, and whether its runner currently runs. -/
structure Artifact where
  name : String
  version : String
  repoId : ℕ
  running : Bool
deriving DecidableEq

/-- The script and service object collections, plus a record of the artifacts
whose processes got killed during deletion. -/
structure CollState where
  scripts : List Artifact
  services : List Artifact
  killedScripts : List Artifact
  killedServices : List Artifact
deriving DecidableEq

/-- `ObjCollection.get_objects_for_release`: every indexed artifact (across
all owners) whose version equals the release id. -/
def get_objects_for_release (objs : List Artifact) (relId : String) : List Artifact :=
  objs.filter (fun a => a.version = relId)

/-- Result of `RepositoryCollection.delete_release`: the state reached and
whether a `NameError` escaped (the services loop reads the variable `script`,
which the scripts loop may have left unbound). -/
structure RepoDeleteResult where
  state : CollState
  nameError : Bool
deriving DecidableEq

/-- One iteration of the scripts loop: kill if running, then delete, but only
for scripts of the repository being processed. -/
def scriptStep (repoId : ℕ) (acc : CollState) (sc : Artifact) : CollState :=
  if sc.repoId = repoId then
    { acc with
      killedScripts := if sc.running then acc.killedScripts ++ [sc] else acc.killedScripts,
      scripts := acc.scripts.erase sc }
  else acc

/-- One iteration of the services loop. The guard in the source reads
`script.release.repo.git_service_id` — the loop variable of the *scripts*
loop — so the condition tests `lastScript`, not the service at hand. -/
def serviceStep (repoId : ℕ) (lastScript : Artifact) (acc : CollState) (sv : Artifact) :
    CollState :=
  if lastScript.repoId = repoId then
    { acc with
      killedServices := if sv.running then acc.killedServices ++ [sv] else acc.killedServices,
      services := acc.services.erase sv }
  else acc

/-- `RepositoryCollection.delete_release(repo, release)`. The scripts loop is
faithful; the services loop's condition references the scripts loop variable
`script`: if no script was iterated, the first services iteration raises
`NameError`, which propagates to the caller. -/
def delete_release (s : CollState) (repoId : ℕ) (relId : String) : RepoDeleteResult :=
  let scripts := get_objects_for_release s.scripts relId
  let services := get_objects_for_release s.services relId
  let s1 := scripts.foldl (scriptStep repoId) s
  match scripts.getLast? with
  | none =>
    if services.isEmpty then ⟨s1, false⟩
    else ⟨s1, true⟩
  | some lastScript => ⟨services.foldl (serviceStep repoId lastScript) s1, false⟩

/-- Combined system state for the full deletion path: the release set's tags,
the disk, and the object collections. -/
structure Sys where
  tags : List String
  disk : Finset String
  coll : CollState
deriving DecidableEq

/-- `Releases.delete_release` with `RepositoryCollection.delete_release`
registered as the delete hook (as `RepositoryCollection.new_repo` does):
remove the tag, fire the hook, then `rel.unload()`. A `NameError` from the
hook propagates before `unload`, so the snapshot survives. Returns the state
reached and whether an exception escaped. -/
def full_delete_release (s : Sys) (repoId : ℕ) (relTag relPath : String) : Sys × Bool :=
  if s.tags.contains relTag then
    let s1 : Sys := { s with tags := s.tags.filter (fun t => t ≠ relTag) }
    let dr := delete_release s1.coll repoId relTag
    if dr.nameError then ({ s1 with coll := dr.state }, true)
    else ({ s1 with coll := dr.state, disk := s1.disk.erase relPath }, false)
  else (s, false)

end CollectionsM

/-! ### Service state machine (`script_handler/models/service.py`) -/

namespace ServiceM

/-- `service.State`. -/
inductive SState where
  | active
  | starting
  | inactive
  | failedToStart
deriving DecidableEq

/-- The fields of a `Service` the run/wait logic reads and writes, plus the
log file's lines and a history of every assignment to `self.state`. -/
structure ServiceState where
  state : SState
  exit_code : Option Int
  started_at : Option ℕ
  enabled : Bool
  log : List String
  runnerRunning : Bool
  history : List SState
deriving DecidableEq

/-- An assignment `self.state = st` (also recorded into the history). -/
def setState (s : ServiceState) (st : SState) : ServiceState :=
  { s with state := st, history := s.history ++ [st] }

/-- `Service._startup_tries`. -/
def startup_tries : ℕ := 5

/-- The launch retry loop
`while not ready and tries < Service._startup_tries: ready = runner.run(...); tries += 1`,
with `attempts i` the readiness reported by the `i`-th `runner.run` call.
The fuel argument starts at `startup_tries` and stands for
`startup_tries - tries`, so the loop structure is preserved. Returns the
final `(tries, ready)`. -/
def attemptLoop (attempts : ℕ → Bool) : ℕ → ℕ → Bool → ℕ × Bool
  | 0, tries, ready => (tries, ready)
  | fuel + 1, tries, ready =>
    if ready then (tries, ready)
    else attemptLoop attempts fuel (tries + 1) (attempts tries)

/-- Result of `Service.run`: the service state reached and how many
`runner.run` launch attempts were made. -/
structure RunOut where
  state : ServiceState
  tries : ℕ
deriving DecidableEq

/-- `Service.run`: materializes the release and ensures the log file exists
(filesystem only), returns if the runner is already running; else STARTING,
logs, retries the launch up to `startup_tries` times; on failure
FAILED_TO_START, reap the exit code (`ec`), log; on success ACTIVE with
`started_at := now` and the background tasks observing a running process. -/
def run (attempts : ℕ → Bool) (ec : Int) (now : ℕ) (s : ServiceState) : RunOut :=
  if s.runnerRunning then ⟨s, 0⟩
  else
    let s1 := setState s .starting
    let s2 := { s1 with log := s1.log ++ ["Starting service..."] }
    let r := attemptLoop attempts startup_tries 0 false
    if r.2 then
      let s3 := setState s2 .active
      ⟨{ s3 with started_at := some now, runnerRunning := true }, r.1⟩
    else
      let s3 := setState s2 .failedToStart
      let s4 := { s3 with exit_code := some ec }
      ⟨{ s4 with log := s4.log ++ ["Failed to start process. exit-code: " ++ toString ec] }, r.1⟩

/-- `Service._wait_task`: fires when the process exits with code `ec` —
record the exit code, INACTIVE, clear `started_at`, log the exit, and if
`enabled` is still true re-invoke `run` (with `attempts`, `rc`, `now`
describing that re-run). -/
def wait_task (attempts : ℕ → Bool) (ec rc : Int) (now : ℕ) (s : ServiceState) : RunOut :=
  let s1 := setState { s with exit_code := some ec, runnerRunning := false } .inactive
  let s2 := { s1 with started_at := none }
  let s3 := { s2 with log := s2.log ++ ["Process exited with code: " ++ toString ec] }
  if s3.enabled then run attempts rc now s3 else ⟨s3, 0⟩

end ServiceM

/-! ### Script run guard (`script_handler/models/script.py`,
`script_handler/handlers/script_handler.py`) -/

namespace ScriptM

/-- `script.State`. -/
inductive ScState where
  | active
  | starting
  | inactive
deriving DecidableEq

/-- The fields of a `Script` touched by `run`, plus a count of OS processes
spawned on its runner. -/
structure ScriptSt where
  state : ScState
  port : Option ℕ
  exit_code : Option Int
  runnerRunning : Bool
  processesStarted : ℕ
deriving DecidableEq

/-- The error the run endpoint reports when the script already runs:
`HTTPException(400, "Script is already running")`. -/
inductive HandlerError where
  | alreadyRunning
deriving DecidableEq

/-- `Script.run`: load the release, STARTING, delegate to `runner.run`
(spawning one process, reporting readiness `ready` and bound port `p`),
then ACTIVE/INACTIVE by readiness, record the port, start the wait task. -/
def scriptRun (ready : Bool) (p : Option ℕ) (s : ScriptSt) : ScriptSt :=
  { s with state := if ready then .active else .inactive,
           port := p,
           runnerRunning := ready,
           processesStarted := s.processesStarted + 1 }

/-- `ScriptHandler.run_script`: `if script.runner.is_running: raise
HTTPException(400, "Script is already running")`, else `script.run(...)`.
Returns the error (if any) and the script state afterwards. -/
def run_script (ready : Bool) (p : Option ℕ) (s : ScriptSt) :
    Option HandlerError × ScriptSt :=
  if s.runnerRunning then (some .alreadyRunning, s)
  else (none, scriptRun ready p s)

end ScriptM

/-! ### Shared clones and runner independence
(`Script.clone_to_shared`, `Service.clone_to_shared`, `Runner.clone`) -/

namespace RunnerWorld

/-- The process-relevant state of one runner object. -/
structure RunnerSt where
  running : Bool
  exitCode : Option Int
  port : Option ℕ
deriving DecidableEq

/-- `Runner.clone()` yields a fresh, not-yet-run runner with the same
construction parameters: no process, no exit code, no port. -/
def freshRunner : RunnerSt := ⟨false, none, none⟩

/-- The heap of runner objects: one state per object identity, and the next
fresh identity. -/
structure World where
  runners : ℕ → RunnerSt
  nextId : ℕ

/-- A runnable artifact (Script or Service) reduced to its compound identity
`(name, version)` and the identity of the runner object it holds. -/
structure Artifact where
  name : String
  version : String
  runnerId : ℕ
deriving DecidableEq

/-- Replace the state of one runner object. -/
def World.update (w : World) (id : ℕ) (st : RunnerSt) : World :=
  ⟨fun j => if j = id then st else w.runners j, w.nextId⟩

/-- `clone_to_shared(new_owner)` (identical in `Script` and `Service`): clone
the release (same tag, hence same `version = release.id`), clone the runner
(a fresh object), keep `name` and the config; the clone is a new artifact
holding the fresh runner. -/
def clone_to_shared (w : World) (a : Artifact) : Artifact × World :=
  (⟨a.name, a.version, w.nextId⟩,
   ⟨fun j => if j = w.nextId then freshRunner else w.runners j, w.nextId + 1⟩)

/-- `runner.run(...)` on the runner object `id`: spawn a process (readiness
aside), possibly binding a port. -/
def runnerRun (w : World) (id : ℕ) (p : Option ℕ) : World :=
  w.update id ⟨true, none, p⟩

/-- `runner.terminate(...)` on the runner object `id`: the process exits with
code `ec` and the port is released. -/
def runnerTerminate (w : World) (id : ℕ) (ec : Int) : World :=
  w.update id ⟨false, some ec, none⟩

/-- `runner.kill(...)` on the runner object `id`. -/
def runnerKill (w : World) (id : ℕ) (ec : Int) : World :=
  w.update id ⟨false, some ec, none⟩

end RunnerWorld

/-! ### Reverse log reading (`Service.get_logs`, `_reverse_read_lines`) -/

namespace LogsM

/-- The line-boundary characters of Python `str.splitlines`: `\n`, `\r`,
`\v` (0x0B), `\f` (0x0C), 0x1C–0x1E, 0x85, U+2028, U+2029. The file is read
in text mode with universal newlines, so `'\r'` (and hence the two-character
boundary `"\r\n"`) never reaches the splitting code; on such carriage-return
free text, per-character splitting is exact. -/
def isLineBreak (c : Char) : Bool :=
  c = '\n' || c = '\r' || c = '\u000B' || c = '\u000C' || c = '\u001C' ||
    c = '\u001D' || c = '\u001E' || c = '\u0085' || c = '\u2028' || c = '\u2029'

/-- Whether the string ends with a newline: the literal check
`buffer[-1] == '\n'` of `_reverse_read_lines` (only `'\n'`, not the other
line boundaries). -/
def endsNl (s : List Char) : Bool :=
  s.getLast? = some '\n'

/-- Whether the string ends with any `str.splitlines` line boundary. -/
def endsLB (s : List Char) : Bool :=
  match s.getLast? with
  | some c => isLineBreak c
  | none => false

/-- Python `str.splitlines(keepends=True)` on carriage-return free text: the
lines of the string with their terminators kept, a line ending at every
line-boundary character. -/
def splitKeep : List Char → List (List Char)
  | [] => []
  | c :: rest =>
    if isLineBreak c then [c] :: splitKeep rest
    else
      match splitKeep rest with
      | [] => [[c]]
      | l :: ls => (c :: l) :: ls

/-- Strip one trailing line-boundary character from a kept-ends line. -/
def stripBreak (l : List Char) : List Char :=
  if endsLB l then l.dropLast else l

/-- Python `str.splitlines()` (terminators dropped) on carriage-return free
text. -/
def splitNoKeep (s : List Char) : List (List Char) :=
  (splitKeep s).map stripBreak

/-- The string's only line-boundary characters are `'\n'`. -/
def onlyNlBreaks (s : List Char) : Prop :=
  ∀ ch ∈ s, isLineBreak ch = true → ch = '\n'

/-- `lines[-1] += segment`: extend the last element of a line list. -/
def appendToLast (L : List (List Char)) (s : List Char) : List (List Char) :=
  match L with
  | [] => []
  | [l] => [l ++ s]
  | l :: l1 :: rest => l :: appendToLast (l1 :: rest) s

/-- Specification device: how the kept-ends line lists of two adjacent pieces
of text combine — if the left piece's last line is newline-terminated the
lists concatenate, else that last line merges with the right piece's first
line. -/
def glue : List (List Char) → List (List Char) → List (List Char)
  | [], B => B
  | [a], [] => [a]
  | [a], b :: bs => if endsLB a then a :: b :: bs else (a ++ b) :: bs
  | a :: a1 :: A, B => a :: glue (a1 :: A) B

/-- The chunks `_reverse_read_lines` reads, in read order: the last
`buf_size` characters first, then the block before it, and so on; the final
chunk (first in the file) holds the remainder. The fuel argument bounds the
recursion by the content length. -/
def chunksRevAux (B : ℕ) : ℕ → List Char → List (List Char)
  | 0, s => if s.isEmpty then [] else [s]
  | fuel + 1, s =>
    if s.length ≤ B then (if s.isEmpty then [] else [s])
    else s.drop (s.length - B) :: chunksRevAux B fuel (s.take (s.length - B))

/-- The chunk sequence `_reverse_read_lines` reads, in read order. -/
def chunksRev (B : ℕ) (s : List Char) : List (List Char) :=
  chunksRevAux B s.length s

/-- The per-chunk body of `_reverse_read_lines`, processing the chunks in
read order with the carried incomplete `segment`, producing the yields in
order: split the buffer keeping ends; if a segment is carried and the buffer
ends in a newline, yield the segment, else merge it into the buffer's last
line; remember the buffer's first line as the new segment and yield the
remaining lines backwards (skipping empty ones); after the last chunk, yield
the pending segment. -/
def revGen : List (List Char) → Option (List Char) → List (List Char)
  | [], seg =>
    match seg with
    | none => []
    | some s => [s]
  | buf :: rest, seg =>
    match splitKeep buf, seg with
    | [], _ => revGen rest seg
    | l0 :: ls, none =>
      (ls.reverse.filter (fun l => !l.isEmpty)) ++ revGen rest (some l0)
    | l0 :: ls, some s =>
      if endsNl buf then
        s :: (ls.reverse.filter (fun l => !l.isEmpty)) ++ revGen rest (some l0)
      else
        match appendToLast (l0 :: ls) s with
        | [] => revGen rest none
        | m0 :: ms => (ms.reverse.filter (fun l => !l.isEmpty)) ++ revGen rest (some m0)

/-- `_reverse_read_lines(fp, buf_size)`: the lines of the content, yielded in
reverse order, reading the file backwards in `B`-sized blocks. -/
def reverse_read_lines (B : ℕ) (content : List Char) : List (List Char) :=
  revGen (chunksRev B content) none

/-- The default block size of `_reverse_read_lines`. -/
def buf_size : ℕ := 8192

/-- `Service.get_logs(limit)`: concatenate the first `limit` lines yielded by
`_reverse_read_lines` (most recent first), then `splitlines()`, reverse, and
join with a newline. -/
def get_logs (limit : ℕ) (content : List Char) : List Char :=
  let logs := (List.take limit (reverse_read_lines buf_size content)).foldl (· ++ ·) []
  List.intercalate ['\n'] (splitNoKeep logs).reverse

/-- The last `n` elements of a list, most recent kept, order preserved. -/
def lastN (n : ℕ) (l : List α) : List α :=
  (l.reverse.take n).reverse

end LogsM

/-! ## Helper lemmas for the service launch retry loop -/

namespace ServiceM

theorem attemptLoop_ready (a : ℕ → Bool) :
    ∀ fuel tries, attemptLoop a fuel tries true = (tries, true)
  | 0, _ => rfl
  | _ + 1, _ => by simp [attemptLoop]

theorem attemptLoop_le (a : ℕ → Bool) :
    ∀ fuel tries ready, (attemptLoop a fuel tries ready).1 ≤ tries + fuel
  | 0, tries, ready => by simp [attemptLoop]
  | fuel + 1, tries, ready => by
    cases ready
    · have ih := attemptLoop_le a fuel (tries + 1) (a tries)
      simp only [attemptLoop, Bool.false_eq_true, if_false]
      omega
    · simp [attemptLoop]

theorem attemptLoop_all_false (a : ℕ → Bool) :
    ∀ fuel tries, (∀ i, i < tries + fuel → a i = false) →
      attemptLoop a fuel tries false = (tries + fuel, false)
  | 0, tries, _ => by simp [attemptLoop]
  | fuel + 1, tries, h => by
    have ha : a tries = false := h tries (by omega)
    have ih := attemptLoop_all_false a fuel (tries + 1) (fun i hi => h i (by omega))
    simp only [attemptLoop, Bool.false_eq_true, if_false, ha, ih]
    congr 1
    omega

theorem attemptLoop_succeeds (a : ℕ → Bool) :
    ∀ fuel tries, (∃ i, tries ≤ i ∧ i < tries + fuel ∧ a i = true) →
      (attemptLoop a fuel tries false).2 = true ∧ tries < (attemptLoop a fuel tries false).1
  | 0, tries, h => by
    obtain ⟨i, h1, h2, _⟩ := h
    omega
  | fuel + 1, tries, h => by
    cases ha : a tries
    · obtain ⟨i, h1, h2, h3⟩ := h
      have hne : i ≠ tries := by
        intro e
        rw [e, ha] at h3
        cases h3
      have ih := attemptLoop_succeeds a fuel (tries + 1) ⟨i, by omega, by omega, h3⟩
      simp only [attemptLoop, Bool.false_eq_true, if_false, ha]
      exact ⟨ih.1, by omega⟩
    · simp [attemptLoop, ha, attemptLoop_ready]

end ServiceM

/-! ## Claim theorems -/

/-- C10: `Runner.terminate`/`Runner.kill` with `timeout = 0` do not bound the
wait: a zero timeout is treated exactly like no timeout — the stop signal is
sent and the call then waits indefinitely for process exit, rather than using
the bounded `wait_for` path that would raise `TimeoutError` immediately. -/
theorem claim_C10_zero_timeout_unbounded :
    RunnerBase.terminate (some 0) = (.termSignal, .waitUnbounded) ∧
    RunnerBase.kill (some 0) = (.killSignal, .waitUnbounded) ∧
    RunnerBase.terminate (some 0) = RunnerBase.terminate none ∧
    RunnerBase.kill (some 0) = RunnerBase.kill none := by
  refine ⟨?_, ?_, ?_, ?_⟩ <;> rfl

/-- C3: on a pool holding a non-empty set of available ports, `acquire_port`
removes and returns the smallest available port; on an empty pool it fails
with the exhaustion error. -/
theorem claim_C3_port_acquire (p : PortService.Pool) :
    (p.ports = [] → PortService.acquire_port p = .error .exhausted) ∧
    (p.ports ≠ [] → ∃ m, PortService.acquire_port p = .ok (m, ⟨p.ports.erase m⟩) ∧
      m ∈ p.ports ∧ ∀ x ∈ p.ports, m ≤ x) := by
  constructor
  · intro h
    simp [PortService.acquire_port, h]
  · intro h
    obtain ⟨m, hm⟩ : ∃ m, p.ports.min? = some m := by
      cases hmin : p.ports.min? with
      | none => exact absurd (List.min?_eq_none_iff.mp hmin) h
      | some m => exact ⟨m, rfl⟩
    have hiff : p.ports.min? = some m ↔ m ∈ p.ports ∧ ∀ b ∈ p.ports, m ≤ b :=
      List.min?_eq_some_iff'
    have hmem := hiff.mp hm
    exact ⟨m, by simp [PortService.acquire_port, hm], hmem.1, hmem.2⟩

/-- Witness for C3 at a concrete pool. -/
theorem claim_C3_witness :
    PortService.acquire_port ⟨[]⟩ = .error .exhausted ∧
    PortService.acquire_port ⟨[5, 3, 9]⟩ = .ok (3, ⟨[5, 9]⟩) :=
  ⟨(claim_C3_port_acquire ⟨[]⟩).1 rfl, rfl⟩

/-- C6: release materialization is idempotent — loading twice in a row leaves
the second call a no-op (it observes the existing path), and the checkout is
performed at most once in total. -/
theorem claim_C6_materialize_idempotent (d : ReleaseM.Disk) (r : ReleaseM.Release) :
    (ReleaseM.load (ReleaseM.load d r).1 r).2 = false ∧
    (ReleaseM.load (ReleaseM.load d r).1 r).1 = (ReleaseM.load d r).1 ∧
    cond (ReleaseM.load d r).2 1 0 + cond (ReleaseM.load (ReleaseM.load d r).1 r).2 1 0 ≤ 1 := by
  by_cases h : ReleaseM.loaded_on_disk d r = true
  · simp [ReleaseM.load, h]
  · have h2 : ReleaseM.loaded_on_disk ⟨insert r.path d.paths⟩ r = true := by
      simp [ReleaseM.loaded_on_disk]
    simp [ReleaseM.load, h, h2]

/-- C9 fails on the code: a failing delete hook raises out of
`Releases.delete_release` before `rel.unload()` runs, so the disk snapshot is
NOT evicted and the failure is a propagating exception, not a reported
non-fatal error. Concrete run: one release, one failing hook. -/
theorem claim_C9_counterexample :
    (ReleasesM.delete_release [.fails] ⟨[⟨"v1", "/r/v1"⟩], {"/r/v1"}⟩ ⟨"v1", "/r/v1"⟩).raised
      = true ∧
    "/r/v1" ∈ (ReleasesM.delete_release [.fails] ⟨[⟨"v1", "/r/v1"⟩], {"/r/v1"}⟩
      ⟨"v1", "/r/v1"⟩).state.disk := by
  decide

/-- C9 amended: when `delete_release` removes a present release and some
delete hook fails, the release is removed from the release set, but the
exception propagates to the caller and the disk snapshot is not evicted. -/
theorem claim_C9_failing_hook_blocks_eviction
    (hooks : List ReleasesM.HookOutcome) (s : ReleasesM.RelState) (rel : ReleasesM.RelInfo)
    (hin : (s.releases.map ReleasesM.RelInfo.tag).contains rel.tag = true)
    (hfail : ReleasesM.runHooks hooks = true) :
    (ReleasesM.delete_release hooks s rel).raised = true ∧
    (ReleasesM.delete_release hooks s rel).state.disk = s.disk ∧
    rel.tag ∉ ((ReleasesM.delete_release hooks s rel).state.releases.map
      ReleasesM.RelInfo.tag) := by
  have hin2 : ∃ a ∈ s.releases, a.tag = rel.tag := by simpa using hin
  refine ⟨?_, ?_, ?_⟩ <;> simp [ReleasesM.delete_release, hin2, hfail]

/-- Witness for the amended C9 at a concrete state. -/
theorem claim_C9_witness :
    (ReleasesM.delete_release [.fails] ⟨[⟨"v2", "/r/v2"⟩], {"/r/v2"}⟩ ⟨"v2", "/r/v2"⟩).raised
      = true ∧
    (ReleasesM.delete_release [.fails] ⟨[⟨"v2", "/r/v2"⟩], {"/r/v2"}⟩
      ⟨"v2", "/r/v2"⟩).state.disk = {"/r/v2"} ∧
    "v2" ∉ ((ReleasesM.delete_release [.fails] ⟨[⟨"v2", "/r/v2"⟩], {"/r/v2"}⟩
      ⟨"v2", "/r/v2"⟩).state.releases.map ReleasesM.RelInfo.tag) :=
  claim_C9_failing_hook_blocks_eviction [.fails] ⟨[⟨"v2", "/r/v2"⟩], {"/r/v2"}⟩
    ⟨"v2", "/r/v2"⟩ (by decide) rfl

/-- C5 fails on the code: deleting a release whose apps are services only (no
scripts) raises `NameError` in `RepositoryCollection.delete_release` (the
services loop tests the unbound scripts-loop variable `script`), so the
service is neither killed nor removed from the index, and — the hook having
raised — `rel.unload()` never runs and the disk snapshot survives. -/
theorem claim_C5_delete_release_service_bug :
    (CollectionsM.full_delete_release
        ⟨["v1"], {"/tmp/7/repo/v1"}, ⟨[], [⟨"daemon", "v1", 7, true⟩], [], []⟩⟩
        7 "v1" "/tmp/7/repo/v1").2 = true ∧
    (CollectionsM.full_delete_release
        ⟨["v1"], {"/tmp/7/repo/v1"}, ⟨[], [⟨"daemon", "v1", 7, true⟩], [], []⟩⟩
        7 "v1" "/tmp/7/repo/v1").1.coll.services = [⟨"daemon", "v1", 7, true⟩] ∧
    (CollectionsM.full_delete_release
        ⟨["v1"], {"/tmp/7/repo/v1"}, ⟨[], [⟨"daemon", "v1", 7, true⟩], [], []⟩⟩
        7 "v1" "/tmp/7/repo/v1").1.coll.killedServices = [] ∧
    "/tmp/7/repo/v1" ∈ (CollectionsM.full_delete_release
        ⟨["v1"], {"/tmp/7/repo/v1"}, ⟨[], [⟨"daemon", "v1", 7, true⟩], [], []⟩⟩
        7 "v1" "/tmp/7/repo/v1").1.disk := by
  decide

/-- C4: invoking the run operation of a Script whose process is currently
running fails with the already-running error and leaves the script unchanged:
no second process is started. -/
theorem claim_C4_already_running (s : ScriptM.ScriptSt) (ready : Bool) (p : Option ℕ)
    (h : s.runnerRunning = true) :
    ScriptM.run_script ready p s = (some .alreadyRunning, s) ∧
    (ScriptM.run_script ready p s).2.processesStarted = s.processesStarted := by
  simp [ScriptM.run_script, h]

/-- Witness for C4 at a concrete running script. -/
theorem claim_C4_witness :
    ScriptM.run_script true (some 8501) ⟨.active, some 8501, none, true, 1⟩ =
      (some .alreadyRunning, ⟨.active, some 8501, none, true, 1⟩) ∧
    (ScriptM.run_script true (some 8501) ⟨.active, some 8501, none, true, 1⟩).2.processesStarted
      = 1 :=
  claim_C4_already_running ⟨.active, some 8501, none, true, 1⟩ true (some 8501) rfl

/-- C7: `clone_to_shared` yields an artifact with the same `(name, version)`
but a fresh, independent runner object: cloning does not touch the original's
runner, and running, terminating or killing either artifact's runner leaves
the other artifact's runner state unchanged. -/
theorem claim_C7_shared_clone_independent (w : RunnerWorld.World) (a : RunnerWorld.Artifact)
    (h : a.runnerId < w.nextId) :
    (RunnerWorld.clone_to_shared w a).1.name = a.name ∧
    (RunnerWorld.clone_to_shared w a).1.version = a.version ∧
    (RunnerWorld.clone_to_shared w a).1.runnerId ≠ a.runnerId ∧
    (RunnerWorld.clone_to_shared w a).2.runners a.runnerId = w.runners a.runnerId ∧
    (∀ p ec,
      (RunnerWorld.runnerRun (RunnerWorld.clone_to_shared w a).2
          (RunnerWorld.clone_to_shared w a).1.runnerId p).runners a.runnerId =
        (RunnerWorld.clone_to_shared w a).2.runners a.runnerId ∧
      (RunnerWorld.runnerTerminate (RunnerWorld.clone_to_shared w a).2
          (RunnerWorld.clone_to_shared w a).1.runnerId ec).runners a.runnerId =
        (RunnerWorld.clone_to_shared w a).2.runners a.runnerId ∧
      (RunnerWorld.runnerKill (RunnerWorld.clone_to_shared w a).2
          (RunnerWorld.clone_to_shared w a).1.runnerId ec).runners a.runnerId =
        (RunnerWorld.clone_to_shared w a).2.runners a.runnerId ∧
      (RunnerWorld.runnerRun (RunnerWorld.clone_to_shared w a).2 a.runnerId p).runners
          (RunnerWorld.clone_to_shared w a).1.runnerId =
        (RunnerWorld.clone_to_shared w a).2.runners (RunnerWorld.clone_to_shared w a).1.runnerId ∧
      (RunnerWorld.runnerTerminate (RunnerWorld.clone_to_shared w a).2 a.runnerId ec).runners
          (RunnerWorld.clone_to_shared w a).1.runnerId =
        (RunnerWorld.clone_to_shared w a).2.runners (RunnerWorld.clone_to_shared w a).1.runnerId ∧
      (RunnerWorld.runnerKill (RunnerWorld.clone_to_shared w a).2 a.runnerId ec).runners
          (RunnerWorld.clone_to_shared w a).1.runnerId =
        (RunnerWorld.clone_to_shared w a).2.runners (RunnerWorld.clone_to_shared w a).1.runnerId) := by
  have hne : a.runnerId ≠ w.nextId := Nat.ne_of_lt h
  have hne2 : w.nextId ≠ a.runnerId := Ne.symm hne
  refine ⟨rfl, rfl, ?_, ?_, ?_⟩
  · simpa [RunnerWorld.clone_to_shared] using hne2
  · simp [RunnerWorld.clone_to_shared, hne]
  · intro p ec
    refine ⟨?_, ?_, ?_, ?_, ?_, ?_⟩ <;>
      simp [RunnerWorld.clone_to_shared, RunnerWorld.runnerRun, RunnerWorld.runnerTerminate,
        RunnerWorld.runnerKill, RunnerWorld.World.update, hne, hne2]

/-- Witness for C7 at a concrete world. -/
theorem claim_C7_witness :
    (RunnerWorld.clone_to_shared ⟨fun _ => RunnerWorld.freshRunner, 1⟩ ⟨"app", "v1", 0⟩).1.name
      = "app" ∧
    (RunnerWorld.clone_to_shared ⟨fun _ => RunnerWorld.freshRunner, 1⟩ ⟨"app", "v1", 0⟩).1.version
      = "v1" ∧
    (RunnerWorld.clone_to_shared ⟨fun _ => RunnerWorld.freshRunner, 1⟩ ⟨"app", "v1", 0⟩).1.runnerId
      ≠ 0 ∧
    (RunnerWorld.runnerTerminate
        (RunnerWorld.clone_to_shared ⟨fun _ => RunnerWorld.freshRunner, 1⟩ ⟨"app", "v1", 0⟩).2
        (RunnerWorld.clone_to_shared ⟨fun _ => RunnerWorld.freshRunner, 1⟩
          ⟨"app", "v1", 0⟩).1.runnerId 0).runners 0 =
      (RunnerWorld.clone_to_shared ⟨fun _ => RunnerWorld.freshRunner, 1⟩
        ⟨"app", "v1", 0⟩).2.runners 0 := by
  have h := claim_C7_shared_clone_independent ⟨fun _ => RunnerWorld.freshRunner, 1⟩
    ⟨"app", "v1", 0⟩ (by decide)
  exact ⟨h.1, h.2.1, h.2.2.1, (h.2.2.2.2 (some 8501) 0).2.1⟩

/-- C2: `Service.run` is a no-op on the service state when the runner already
runs (zero launch attempts); otherwise it transitions to STARTING and
launches at most `startup_tries = 5` times. If no attempt reports readiness
it transitions to FAILED_TO_START, reaps the exit code at once, and appends a
log line (after exactly 5 attempts); if some attempt reports readiness it
transitions to ACTIVE and records the start time. -/
theorem claim_C2_service_run_retries (s : ServiceM.ServiceState) (attempts : ℕ → Bool)
    (ec : Int) (now : ℕ) :
    (s.runnerRunning = true → ServiceM.run attempts ec now s = ⟨s, 0⟩) ∧
    (s.runnerRunning = false →
      (ServiceM.run attempts ec now s).tries ≤ ServiceM.startup_tries ∧
      ((∀ i, i < ServiceM.startup_tries → attempts i = false) →
        (ServiceM.run attempts ec now s).state.state = .failedToStart ∧
        (ServiceM.run attempts ec now s).tries = ServiceM.startup_tries ∧
        (ServiceM.run attempts ec now s).state.exit_code = some ec ∧
        (ServiceM.run attempts ec now s).state.log =
          s.log ++ ["Starting service...",
            "Failed to start process. exit-code: " ++ toString ec] ∧
        (ServiceM.run attempts ec now s).state.history =
          s.history ++ [.starting, .failedToStart]) ∧
      ((∃ i, i < ServiceM.startup_tries ∧ attempts i = true) →
        (ServiceM.run attempts ec now s).state.state = .active ∧
        (ServiceM.run attempts ec now s).state.started_at = some now ∧
        1 ≤ (ServiceM.run attempts ec now s).tries ∧
        (ServiceM.run attempts ec now s).state.history =
          s.history ++ [.starting, .active])) := by
  refine ⟨fun h => by simp [ServiceM.run, h], fun h => ⟨?_, ?_, ?_⟩⟩
  · have hle := ServiceM.attemptLoop_le attempts ServiceM.startup_tries 0 false
    simp only [ServiceM.run, h, Bool.false_eq_true, if_false]
    split <;> simpa using hle
  · intro hall
    have heq : ServiceM.attemptLoop attempts ServiceM.startup_tries 0 false =
        (ServiceM.startup_tries, false) := by
      simpa using ServiceM.attemptLoop_all_false attempts ServiceM.startup_tries 0
        (fun i hi => hall i (by simpa using hi))
    refine ⟨?_, ?_, ?_, ?_, ?_⟩ <;>
      simp [ServiceM.run, h, heq, ServiceM.setState]
  · intro hex
    obtain ⟨i, hi, hai⟩ := hex
    have hs := ServiceM.attemptLoop_succeeds attempts ServiceM.startup_tries 0
      ⟨i, Nat.zero_le i, by simpa using hi, hai⟩
    refine ⟨?_, ?_, ?_, ?_⟩ <;>
      simp [ServiceM.run, h, hs.1, ServiceM.setState]
    exact hs.2

/-- Witness for C2: a non-running service with a program that never reports
readiness reaches FAILED_TO_START after exactly 5 attempts. -/
theorem claim_C2_witness :
    (ServiceM.run (fun _ => false) 1 100 ⟨.inactive, none, none, false, [], false, []⟩).state.state
      = .failedToStart ∧
    (ServiceM.run (fun _ => false) 1 100 ⟨.inactive, none, none, false, [], false, []⟩).tries
      = ServiceM.startup_tries := by
  have h := (claim_C2_service_run_retries ⟨.inactive, none, none, false, [], false, []⟩
    (fun _ => false) 1 100).2 rfl
  exact ⟨(h.2.1 (fun i _ => rfl)).1, (h.2.1 (fun i _ => rfl)).2.1⟩

/-- C1: when a running service's process exits, `_wait_task` records the exit
code and reverts the state to INACTIVE; if the persisted `enabled` flag is
true it re-invokes `run`, taking the service back through STARTING to ACTIVE
(when some launch attempt reports readiness) with at least one launch
attempt; if `enabled` is false at exit time, no re-run happens and the
service stays INACTIVE. -/
theorem claim_C1_service_autorestart (s : ServiceM.ServiceState) (attempts : ℕ → Bool)
    (ec rc : Int) (now : ℕ) :
    (s.enabled = true → (∃ i, i < ServiceM.startup_tries ∧ attempts i = true) →
      (ServiceM.wait_task attempts ec rc now s).state.exit_code = some ec ∧
      (ServiceM.wait_task attempts ec rc now s).state.state = .active ∧
      1 ≤ (ServiceM.wait_task attempts ec rc now s).tries ∧
      (ServiceM.wait_task attempts ec rc now s).state.history =
        s.history ++ [.inactive, .starting, .active]) ∧
    (s.enabled = false →
      (ServiceM.wait_task attempts ec rc now s).tries = 0 ∧
      (ServiceM.wait_task attempts ec rc now s).state.state = .inactive ∧
      (ServiceM.wait_task attempts ec rc now s).state.exit_code = some ec) := by
  constructor
  · intro hen hex
    obtain ⟨i, hi, hai⟩ := hex
    have hs := ServiceM.attemptLoop_succeeds attempts ServiceM.startup_tries 0
      ⟨i, Nat.zero_le i, by simpa using hi, hai⟩
    refine ⟨?_, ?_, ?_, ?_⟩ <;>
      simp [ServiceM.wait_task, ServiceM.run, ServiceM.setState, hen, hs.1]
    exact hs.2
  · intro hen
    refine ⟨?_, ?_, ?_⟩ <;> simp [ServiceM.wait_task, ServiceM.setState, hen]

/-- Witness for C1: an enabled service whose process exits restarts itself to
ACTIVE; the exit code is recorded. -/
theorem claim_C1_witness :
    (ServiceM.wait_task (fun _ => true) 9 0 100
      ⟨.active, none, some 50, true, [], true, []⟩).state.state = .active ∧
    (ServiceM.wait_task (fun _ => true) 9 0 100
      ⟨.active, none, some 50, true, [], true, []⟩).state.exit_code = some 9 ∧
    1 ≤ (ServiceM.wait_task (fun _ => true) 9 0 100
      ⟨.active, none, some 50, true, [], true, []⟩).tries := by
  have h := (claim_C1_service_autorestart ⟨.active, none, some 50, true, [], true, []⟩
    (fun _ => true) 9 0 100).1 rfl ⟨0, by decide, rfl⟩
  exact ⟨h.2.1, h.1, h.2.2.1⟩

/-! ## Helper lemmas for the reverse log reader -/

namespace LogsM

theorem splitKeep_ne_nil (c : Char) (s : List Char) : splitKeep (c :: s) ≠ [] := by
  unfold splitKeep
  split
  · simp
  · split <;> simp

theorem splitKeep_eq_nil : ∀ {s : List Char}, splitKeep s = [] → s = []
  | [], _ => rfl
  | c :: s, h => absurd h (splitKeep_ne_nil c s)

theorem mem_splitKeep_ne_nil : ∀ (s : List Char), ∀ l ∈ splitKeep s, l ≠ []
  | [], l, hl => by simp [splitKeep] at hl
  | c :: s, l, hl => by
    by_cases hc : isLineBreak c = true
    · rw [splitKeep, if_pos hc] at hl
      rcases List.mem_cons.mp hl with h | h
      · subst h; simp
      · exact mem_splitKeep_ne_nil s l h
    · rw [splitKeep, if_neg hc] at hl
      cases hsp : splitKeep s with
      | nil =>
        rw [hsp] at hl
        simp at hl
        subst hl; simp
      | cons l0 ls =>
        rw [hsp] at hl
        rcases List.mem_cons.mp hl with h | h
        · subst h; simp
        · exact mem_splitKeep_ne_nil s l (by rw [hsp]; exact List.mem_cons_of_mem l0 h)

theorem join_splitKeep : ∀ (s : List Char), (splitKeep s).flatten = s
  | [] => rfl
  | c :: s => by
    by_cases hc : isLineBreak c = true
    · rw [splitKeep, if_pos hc, List.flatten_cons, join_splitKeep s]
      rfl
    · rw [splitKeep, if_neg hc]
      cases hsp : splitKeep s with
      | nil =>
        have hs := splitKeep_eq_nil hsp
        subst hs
        simp
      | cons l0 ls =>
        have := join_splitKeep s
        rw [hsp] at this
        simp only [List.flatten_cons] at this ⊢
        rw [List.cons_append, this]

theorem mem_of_mem_splitKeep {s l : List Char} {ch : Char}
    (hl : l ∈ splitKeep s) (hch : ch ∈ l) : ch ∈ s := by
  rw [← join_splitKeep s]
  exact List.mem_flatten.mpr ⟨l, hl, hch⟩

theorem splitKeep_no_inner_break :
    ∀ (s : List Char), ∀ l ∈ splitKeep s, ∀ ch ∈ l.dropLast, isLineBreak ch = false
  | [], l, hl => by simp [splitKeep] at hl
  | c :: s, l, hl => by
    by_cases hc : isLineBreak c = true
    · rw [splitKeep, if_pos hc] at hl
      rcases List.mem_cons.mp hl with h | h
      · subst h; simp
      · exact splitKeep_no_inner_break s l h
    · rw [splitKeep, if_neg hc] at hl
      cases hsp : splitKeep s with
      | nil =>
        rw [hsp] at hl
        simp at hl
        subst hl; simp
      | cons l0 ls =>
        rw [hsp] at hl
        rcases List.mem_cons.mp hl with h | h
        · subst h
          have hl0 : l0 ≠ [] := mem_splitKeep_ne_nil s l0 (by rw [hsp]; exact List.mem_cons_self _ _)
          have hl0nb : ∀ ch ∈ l0.dropLast, isLineBreak ch = false :=
            splitKeep_no_inner_break s l0 (by rw [hsp]; exact List.mem_cons_self _ _)
          intro ch hch
          rw [List.dropLast_cons_of_ne_nil hl0] at hch
          rcases List.mem_cons.mp hch with h1 | h1
          · subst h1; simpa using hc
          · exact hl0nb ch h1
        · exact splitKeep_no_inner_break s l (by rw [hsp]; exact List.mem_cons_of_mem l0 h)

theorem getLast?_cons_ne (c : Char) : ∀ {s : List Char}, s ≠ [] →
    (c :: s).getLast? = s.getLast?
  | [], h => absurd rfl h
  | _ :: _, _ => List.getLast?_cons_cons

theorem getLast?_splitKeep : ∀ (s : List Char) (l : List Char),
    (splitKeep s).getLast? = some l → l.getLast? = s.getLast?
  | [], l => by simp [splitKeep]
  | c :: s, l => by
    by_cases hc : isLineBreak c = true
    · rw [splitKeep, if_pos hc]
      cases hsp : splitKeep s with
      | nil =>
        intro h
        simp at h
        subst h
        have hs : s = [] := splitKeep_eq_nil hsp
        subst hs
        rfl
      | cons l0 ls =>
        intro h
        rw [List.getLast?_cons_cons] at h
        have hs : s ≠ [] := fun e => by rw [e] at hsp; simp [splitKeep] at hsp
        rw [getLast?_cons_ne c hs]
        exact getLast?_splitKeep s l (by rw [hsp]; exact h)
    · rw [splitKeep, if_neg hc]
      cases hsp : splitKeep s with
      | nil =>
        intro h
        simp at h
        subst h
        have hs : s = [] := splitKeep_eq_nil hsp
        subst hs
        rfl
      | cons l0 ls =>
        have hs : s ≠ [] := fun e => by rw [e] at hsp; simp [splitKeep] at hsp
        cases ls with
        | nil =>
          intro h
          simp at h
          subst h
          have hl0 : l0 ≠ [] :=
            mem_splitKeep_ne_nil s l0 (by rw [hsp]; exact List.mem_cons_self _ _)
          rw [getLast?_cons_ne c hl0, getLast?_cons_ne c hs]
          exact getLast?_splitKeep s l0 (by rw [hsp]; rfl)
        | cons l1 ls1 =>
          intro h
          rw [List.getLast?_cons_cons] at h
          rw [getLast?_cons_ne c hs]
          exact getLast?_splitKeep s l
            (by rw [hsp, List.getLast?_cons_cons]; exact h)

theorem endsLB_getLast_splitKeep {s l : List Char}
    (h : (splitKeep s).getLast? = some l) : endsLB l = endsLB s := by
  unfold endsLB
  rw [getLast?_splitKeep s l h]

theorem endsLB_eq_endsNl (s : List Char) (h : onlyNlBreaks s) : endsLB s = endsNl s := by
  unfold endsLB endsNl
  cases hgl : s.getLast? with
  | none => simp
  | some ch =>
    have hmem : ch ∈ s := List.mem_of_getLast?_eq_some hgl
    by_cases hb : isLineBreak ch = true
    · have := h ch hmem hb
      subst this
      simp [hb]
    · have hne : ch ≠ '\n' := fun e => hb (by subst e; rfl)
      simp [hb, hne]

theorem splitKeep_singleton : ∀ (s : List Char), s ≠ [] →
    (∀ ch ∈ s.dropLast, isLineBreak ch = false) → splitKeep s = [s]
  | [], h, _ => absurd rfl h
  | [c], _, _ => by
    by_cases hc : isLineBreak c = true <;> simp [splitKeep, hc]
  | c :: c1 :: t, _, h => by
    have hd : (c :: c1 :: t).dropLast = c :: (c1 :: t).dropLast := rfl
    rw [hd] at h
    have hc : ¬isLineBreak c = true := by
      rw [h c (List.mem_cons_self _ _)]
      simp
    have h2 : ∀ ch ∈ (c1 :: t).dropLast, isLineBreak ch = false :=
      fun ch hm => h ch (List.mem_cons_of_mem _ hm)
    have ih := splitKeep_singleton (c1 :: t) (by simp) h2
    rw [splitKeep, if_neg hc, ih]

theorem glue_nil_right : ∀ (A : List (List Char)), glue A [] = A
  | [] => rfl
  | [_] => rfl
  | a :: a1 :: A => by
    rw [glue, glue_nil_right (a1 :: A)]

theorem glue_extend : ∀ (A : List (List Char)) (b : List Char) (bs : List (List Char)),
    glue A (b :: bs) = glue A [b] ++ bs
  | [], b, bs => by simp [glue]
  | [a], b, bs => by
    by_cases he : endsLB a = true <;> simp [glue, he]
  | a :: a1 :: A, b, bs => by
    rw [glue, glue, glue_extend (a1 :: A) b bs, List.cons_append]

theorem glue_last_endsLB : ∀ (A B : List (List Char)),
    (∀ l, A.getLast? = some l → endsLB l = true) → glue A B = A ++ B
  | [], B, _ => rfl
  | [a], B, h => by
    cases B with
    | nil => rfl
    | cons b bs => simp [glue, h a rfl]
  | a :: a1 :: A, B, h => by
    rw [glue, glue_last_endsLB (a1 :: A) B
      (fun l hl => h l (by rw [List.getLast?_cons_cons]; exact hl))]
    simp

theorem glue_singleton_appendToLast : ∀ (A : List (List Char)) (b : List Char), A ≠ [] →
    (∀ l, A.getLast? = some l → endsLB l = false) → glue A [b] = appendToLast A b
  | [], _, h, _ => absurd rfl h
  | [a], b, _, h => by
    simp [glue, appendToLast, h a rfl]
  | a :: a1 :: A, b, _, h => by
    rw [glue, appendToLast,
      glue_singleton_appendToLast (a1 :: A) b (by simp)
        (fun l hl => h l (by rw [List.getLast?_cons_cons]; exact hl))]

theorem glue_singleton_endsLB (a : List Char) (B : List (List Char)) (h : endsLB a = true) :
    glue [a] B = a :: B := by
  cases B with
  | nil => rfl
  | cons b bs => simp [glue, h]

theorem splitKeep_append : ∀ (X W : List Char),
    splitKeep (X ++ W) = glue (splitKeep X) (splitKeep W)
  | [], W => by simp [splitKeep, glue]
  | c :: X, W => by
    have ih := splitKeep_append X W
    by_cases hc : isLineBreak c = true
    · rw [List.cons_append, splitKeep, if_pos hc, ih, splitKeep, if_pos hc]
      cases hsx : splitKeep X with
      | nil =>
        cases hsw : splitKeep W with
        | nil => simp [glue]
        | cons b bs =>
          have hnl : endsLB [c] = true := by simp [endsLB, hc]
          simp [glue, hnl]
      | cons x xs => rw [glue]
    · rw [List.cons_append, splitKeep, if_neg hc, ih, splitKeep, if_neg hc]
      cases hsx : splitKeep X with
      | nil =>
        cases hsw : splitKeep W with
        | nil => simp [glue]
        | cons b bs =>
          have hn : endsLB [c] = false := by
            simp only [endsLB, List.getLast?_singleton]
            simpa using hc
          simp [glue, hn]
      | cons l0 ls =>
        cases ls with
        | nil =>
          have hl0 : l0 ≠ [] :=
            mem_splitKeep_ne_nil X l0 (by rw [hsx]; exact List.mem_cons_self _ _)
          cases hsw : splitKeep W with
          | nil => simp [glue]
          | cons b bs =>
            have hcons : endsLB (c :: l0) = endsLB l0 := by
              unfold endsLB
              rw [getLast?_cons_ne c hl0]
            by_cases he : endsLB l0 = true
            · have hce : endsLB (c :: l0) = true := by rw [hcons]; exact he
              simp [glue, he, hce]
            · have hef : endsLB l0 = false := by simpa using he
              have hce : endsLB (c :: l0) = false := by rw [hcons]; exact hef
              simp [glue, hef, hce]
        | cons l1 ls1 => simp [glue]

theorem filter_keep_nonempty (ls : List (List Char)) (h : ∀ l ∈ ls, l ≠ []) :
    ls.filter (fun l => !l.isEmpty) = ls := by
  rw [List.filter_eq_self]
  intro l hl
  simp [List.isEmpty_iff, h l hl]

theorem splitKeep_append_head (X W w0 : List Char) (wrest : List (List Char))
    (hW : splitKeep W = w0 :: wrest) (hw0 : splitKeep w0 = [w0]) :
    splitKeep (X ++ W) = splitKeep (X ++ w0) ++ wrest := by
  rw [splitKeep_append X W, hW, splitKeep_append X w0, hw0]
  exact glue_extend (splitKeep X) w0 wrest

theorem splitKeep_chunk_step (buf seg : List Char) (hbuf : buf ≠ []) (hseg : seg ≠ [])
    (hsegNl : ∀ ch ∈ seg.dropLast, isLineBreak ch = false) :
    splitKeep (buf ++ seg) =
      if endsLB buf = true then splitKeep buf ++ [seg]
      else appendToLast (splitKeep buf) seg := by
  rw [splitKeep_append buf seg, splitKeep_singleton seg hseg hsegNl]
  by_cases he : endsLB buf = true
  · rw [if_pos he]
    exact glue_last_endsLB (splitKeep buf) [seg]
      (fun l hl => by rw [endsLB_getLast_splitKeep hl]; exact he)
  · rw [if_neg he]
    have hne : splitKeep buf ≠ [] := fun e => hbuf (splitKeep_eq_nil e)
    exact glue_singleton_appendToLast (splitKeep buf) seg hne
      (fun l hl => by rw [endsLB_getLast_splitKeep hl]; simpa using he)

theorem revGen_some : ∀ (cs : List (List Char)) (seg : List Char),
    (∀ c ∈ cs, c ≠ []) → (∀ c ∈ cs, onlyNlBreaks c) → seg ≠ [] →
    (∀ ch ∈ seg.dropLast, isLineBreak ch = false) → onlyNlBreaks seg →
    revGen cs (some seg) = (splitKeep (cs.reverse.flatten ++ seg)).reverse
  | [], seg, _, _, hseg, hs, _ => by
    simp [revGen, splitKeep_singleton seg hseg hs]
  | buf :: rest, seg, hcs, hnl, hseg, hs, hsonly => by
    have hbuf : buf ≠ [] := hcs buf (List.mem_cons_self _ _)
    have hbufonly : onlyNlBreaks buf := hnl buf (List.mem_cons_self _ _)
    have hrest : ∀ c ∈ rest, c ≠ [] := fun c hc => hcs c (List.mem_cons_of_mem _ hc)
    have hrestonly : ∀ c ∈ rest, onlyNlBreaks c := fun c hc => hnl c (List.mem_cons_of_mem _ hc)
    have hLB : endsLB buf = endsNl buf := endsLB_eq_endsNl buf hbufonly
    cases hsp : splitKeep buf with
    | nil => exact absurd (splitKeep_eq_nil hsp) hbuf
    | cons l0 ls =>
      have hl0mem : l0 ∈ splitKeep buf := by rw [hsp]; exact List.mem_cons_self _ _
      have hl0ne : l0 ≠ [] := mem_splitKeep_ne_nil buf l0 hl0mem
      have hl0nb : ∀ ch ∈ l0.dropLast, isLineBreak ch = false :=
        splitKeep_no_inner_break buf l0 hl0mem
      have hl0only : onlyNlBreaks l0 := fun ch hch hb =>
        hbufonly ch (mem_of_mem_splitKeep hl0mem hch) hb
      have hlsne : ∀ l ∈ ls, l ≠ [] := fun l hl =>
        mem_splitKeep_ne_nil buf l (by rw [hsp]; exact List.mem_cons_of_mem _ hl)
      have hjoin : (buf :: rest).reverse.flatten ++ seg =
          rest.reverse.flatten ++ (buf ++ seg) := by
        simp [List.append_assoc]
      rw [hjoin]
      by_cases he : endsNl buf = true
      · have hstep : splitKeep (buf ++ seg) = l0 :: (ls ++ [seg]) := by
          have hx := splitKeep_chunk_step buf seg hbuf hseg hs
          rw [hLB, if_pos he, hsp] at hx
          simpa using hx
        have hsingle : splitKeep l0 = [l0] := splitKeep_singleton l0 hl0ne hl0nb
        have hhead := splitKeep_append_head rest.reverse.flatten (buf ++ seg) l0
          (ls ++ [seg]) hstep hsingle
        rw [hhead]
        have ih := revGen_some rest l0 hrest hrestonly hl0ne hl0nb hl0only
        simp only [revGen, hsp, he, if_true]
        rw [filter_keep_nonempty ls.reverse (fun l hl => hlsne l (List.mem_reverse.mp hl)), ih]
        simp [List.reverse_append]
      · have hef : endsNl buf = false := by simpa using he
        have hstep : splitKeep (buf ++ seg) = appendToLast (l0 :: ls) seg := by
          have hx := splitKeep_chunk_step buf seg hbuf hseg hs
          rw [hLB, if_neg he, hsp] at hx
          exact hx
        cases hm : appendToLast (l0 :: ls) seg with
        | nil =>
          exfalso
          have hz : splitKeep (buf ++ seg) = [] := by rw [hstep, hm]
          exact hbuf (List.append_eq_nil.mp (splitKeep_eq_nil hz)).1
        | cons m0 ms =>
          have hM : splitKeep (buf ++ seg) = m0 :: ms := by rw [hstep, hm]
          have hm0mem : m0 ∈ splitKeep (buf ++ seg) := by
            rw [hM]; exact List.mem_cons_self _ _
          have hm0ne : m0 ≠ [] := mem_splitKeep_ne_nil (buf ++ seg) m0 hm0mem
          have hm0nb : ∀ ch ∈ m0.dropLast, isLineBreak ch = false :=
            splitKeep_no_inner_break (buf ++ seg) m0 hm0mem
          have hm0only : onlyNlBreaks m0 := fun ch hch hb => by
            rcases List.mem_append.mp (mem_of_mem_splitKeep hm0mem hch) with h1 | h1
            · exact hbufonly ch h1 hb
            · exact hsonly ch h1 hb
          have hmsne : ∀ l ∈ ms, l ≠ [] := fun l hl =>
            mem_splitKeep_ne_nil (buf ++ seg) l (by rw [hM]; exact List.mem_cons_of_mem _ hl)
          have hsingle : splitKeep m0 = [m0] := splitKeep_singleton m0 hm0ne hm0nb
          have hhead := splitKeep_append_head rest.reverse.flatten (buf ++ seg) m0 ms hM hsingle
          rw [hhead]
          have ih := revGen_some rest m0 hrest hrestonly hm0ne hm0nb hm0only
          simp only [revGen, hsp, hef, Bool.false_eq_true, if_false, hm]
          rw [filter_keep_nonempty ms.reverse (fun l hl => hmsne l (List.mem_reverse.mp hl)), ih]
          simp [List.reverse_append]

theorem revGen_none : ∀ (cs : List (List Char)), (∀ c ∈ cs, c ≠ []) →
    (∀ c ∈ cs, onlyNlBreaks c) →
    revGen cs none = (splitKeep cs.reverse.flatten).reverse
  | [], _, _ => by simp [revGen, splitKeep]
  | buf :: rest, hcs, hnl => by
    have hbuf : buf ≠ [] := hcs buf (List.mem_cons_self _ _)
    have hbufonly : onlyNlBreaks buf := hnl buf (List.mem_cons_self _ _)
    have hrest : ∀ c ∈ rest, c ≠ [] := fun c hc => hcs c (List.mem_cons_of_mem _ hc)
    have hrestonly : ∀ c ∈ rest, onlyNlBreaks c := fun c hc => hnl c (List.mem_cons_of_mem _ hc)
    cases hsp : splitKeep buf with
    | nil => exact absurd (splitKeep_eq_nil hsp) hbuf
    | cons l0 ls =>
      have hl0mem : l0 ∈ splitKeep buf := by rw [hsp]; exact List.mem_cons_self _ _
      have hl0ne : l0 ≠ [] := mem_splitKeep_ne_nil buf l0 hl0mem
      have hl0nb : ∀ ch ∈ l0.dropLast, isLineBreak ch = false :=
        splitKeep_no_inner_break buf l0 hl0mem
      have hl0only : onlyNlBreaks l0 := fun ch hch hb =>
        hbufonly ch (mem_of_mem_splitKeep hl0mem hch) hb
      have hlsne : ∀ l ∈ ls, l ≠ [] := fun l hl =>
        mem_splitKeep_ne_nil buf l (by rw [hsp]; exact List.mem_cons_of_mem _ hl)
      have hsingle : splitKeep l0 = [l0] := splitKeep_singleton l0 hl0ne hl0nb
      have hjoin : (buf :: rest).reverse.flatten = rest.reverse.flatten ++ buf := by simp
      rw [hjoin]
      have hhead := splitKeep_append_head rest.reverse.flatten buf l0 ls hsp hsingle
      rw [hhead]
      have ih := revGen_some rest l0 hrest hrestonly hl0ne hl0nb hl0only
      simp only [revGen, hsp]
      rw [filter_keep_nonempty ls.reverse (fun l hl => hlsne l (List.mem_reverse.mp hl)), ih]
      simp [List.reverse_append]

theorem chunksRevAux_spec (B : ℕ) (hB : 1 ≤ B) :
    ∀ (fuel : ℕ) (s : List Char), s.length ≤ fuel →
      (chunksRevAux B fuel s).reverse.flatten = s ∧ ∀ c ∈ chunksRevAux B fuel s, c ≠ []
  | 0, s, h => by
    have hs : s = [] := List.eq_nil_of_length_eq_zero (Nat.le_zero.mp h)
    subst hs
    simp [chunksRevAux]
  | fuel + 1, s, h => by
    by_cases hle : s.length ≤ B
    · cases s with
      | nil => simp [chunksRevAux]
      | cons c t =>
        have hle2 : t.length + 1 ≤ B := by simpa using hle
        simp [chunksRevAux, hle2]
    · have hlen : (s.take (s.length - B)).length ≤ fuel := by
        simp only [List.length_take]
        omega
      have ih := chunksRevAux_spec B hB fuel (s.take (s.length - B)) hlen
      constructor
      · simp only [chunksRevAux, if_neg hle, List.reverse_cons, List.flatten_append,
          List.flatten_cons, List.flatten_nil, ih.1, List.append_nil]
        exact List.take_append_drop _ s
      · intro c hc
        simp only [chunksRevAux, if_neg hle] at hc
        rcases List.mem_cons.mp hc with h1 | h1
        · subst h1
          intro e
          have hlen2 : s.length - (s.length - B) = 0 := by
            rw [← List.length_drop, e]
            rfl
          omega
        · exact ih.2 c h1

theorem reverse_read_lines_eq (B : ℕ) (hB : 1 ≤ B) (content : List Char)
    (honly : onlyNlBreaks content) :
    reverse_read_lines B content = (splitKeep content).reverse := by
  have hspec := chunksRevAux_spec B hB content.length content le_rfl
  have hchunksOnly : ∀ c ∈ chunksRevAux B content.length content, onlyNlBreaks c := by
    intro c hc ch hch hb
    refine honly ch ?_ hb
    rw [← hspec.1]
    exact List.mem_flatten.mpr ⟨c, List.mem_reverse.mpr hc, hch⟩
  unfold reverse_read_lines chunksRev
  rw [revGen_none _ hspec.2 hchunksOnly, hspec.1]

theorem foldl_append_flatten : ∀ (L : List (List Char)) (acc : List Char),
    L.foldl (· ++ ·) acc = acc ++ L.flatten
  | [], acc => by simp
  | x :: L, acc => by
    simp [List.foldl_cons, foldl_append_flatten L (acc ++ x), List.append_assoc]

theorem splitKeep_join_map : ∀ (bodies : List (List Char)),
    (∀ b ∈ bodies, ∀ ch ∈ b, isLineBreak ch = false) →
    splitKeep (List.flatten (bodies.map (fun b => b ++ ['\n']))) =
      bodies.map (fun b => b ++ ['\n'])
  | [], _ => by simp [splitKeep]
  | b :: rest, h => by
    have hb : ∀ ch ∈ b, isLineBreak ch = false := h b (List.mem_cons_self _ _)
    have hrest := splitKeep_join_map rest (fun x hx => h x (List.mem_cons_of_mem _ hx))
    have hend : endsLB (b ++ ['\n']) = true := by
      simp [endsLB, isLineBreak]
    have hsingle : splitKeep (b ++ ['\n']) = [b ++ ['\n']] :=
      splitKeep_singleton (b ++ ['\n']) (by simp) (by simpa using hb)
    simp only [List.map_cons, List.flatten_cons]
    rw [splitKeep_append, hsingle, glue_singleton_endsLB _ _ hend, hrest]

theorem splitNoKeep_join_map (bodies : List (List Char))
    (h : ∀ b ∈ bodies, ∀ ch ∈ b, isLineBreak ch = false) :
    splitNoKeep (List.flatten (bodies.map (fun b => b ++ ['\n']))) = bodies := by
  unfold splitNoKeep
  rw [splitKeep_join_map bodies h, List.map_map]
  have hstrip : ∀ b : List Char, stripBreak (b ++ ['\n']) = b := fun b => by
    simp [stripBreak, endsLB, isLineBreak]
  have hid : (stripBreak ∘ fun b => b ++ ['\n']) = id := funext fun b => hstrip b
  rw [hid, List.map_id]

end LogsM

/-- C8 fails on the code: for a log file that does not end in a newline,
`get_logs` concatenates the backward-read lines and re-splits them, merging
the last two lines. The 2-line file `"a\nb"` with `limit = 2` yields `"ba"`
instead of the last two lines `"a\nb"` in chronological order. -/
theorem claim_C8_counterexample :
    LogsM.splitNoKeep ['a', '\n', 'b'] = [['a'], ['b']] ∧
    LogsM.get_logs 2 ['a', '\n', 'b'] = ['b', 'a'] ∧
    LogsM.get_logs 2 ['a', '\n', 'b'] ≠
      List.intercalate ['\n'] (LogsM.lastN 2 [['a'], ['b']]) := by
  decide

/-- C8 amended: for every log file made of `'\n'`-terminated lines whose
bodies contain no `str.splitlines` line-boundary character (so the file's
lines are exactly its `splitlines` lines, as the service's log writer
produces) and every limit `n`, `get_logs n` returns exactly the `min n k`
most recent of the `k` lines, joined in their original chronological order.
A file whose last line is not newline-terminated instead has its final two
lines merged (see the counterexample), and a body holding another boundary
character (`\v`, `\f`, ...) is split at it. -/
theorem claim_C8_get_logs_recent_lines (bodies : List (List Char)) (n : ℕ)
    (h : ∀ b ∈ bodies, ∀ ch ∈ b, LogsM.isLineBreak ch = false) :
    LogsM.get_logs n (List.flatten (bodies.map (fun b => b ++ ['\n']))) =
      List.intercalate ['\n'] (LogsM.lastN n bodies) ∧
    (LogsM.lastN n bodies).length = min n bodies.length := by
  constructor
  · have honly : LogsM.onlyNlBreaks (List.flatten (bodies.map (fun b => b ++ ['\n']))) := by
      intro ch hch hb
      rw [List.mem_flatten] at hch
      obtain ⟨piece, hp, hchp⟩ := hch
      rw [List.mem_map] at hp
      obtain ⟨b, hbmem, rfl⟩ := hp
      rcases List.mem_append.mp hchp with h1 | h1
      · exact absurd hb (by simp [h b hbmem ch h1])
      · simpa using h1
    unfold LogsM.get_logs
    rw [LogsM.reverse_read_lines_eq LogsM.buf_size (by norm_num [LogsM.buf_size]) _ honly,
      LogsM.splitKeep_join_map bodies h, LogsM.foldl_append_flatten, List.nil_append]
    have hrev : (bodies.map (fun b => b ++ ['\n'])).reverse =
        bodies.reverse.map (fun b => b ++ ['\n']) := by
      simp
    rw [hrev, ← List.map_take]
    show List.intercalate ['\n'] (LogsM.splitNoKeep
        ((List.map (fun b => b ++ ['\n']) (List.take n bodies.reverse)).flatten)).reverse =
      List.intercalate ['\n'] (LogsM.lastN n bodies)
    rw [LogsM.splitNoKeep_join_map _
      (fun b hb => h b (List.mem_reverse.mp (List.mem_of_mem_take hb)))]
    rfl
  · simp [LogsM.lastN]

/-- Witness for the amended C8 at a concrete 3-line log file with limit 2. -/
theorem claim_C8_witness :
    LogsM.get_logs 2 (List.flatten ([['a'], ['b'], ['c']].map (fun b => b ++ ['\n']))) =
      List.intercalate ['\n'] (LogsM.lastN 2 [['a'], ['b'], ['c']]) ∧
    (LogsM.lastN 2 [['a'], ['b'], ['c']]).length = min 2 3 :=
  claim_C8_get_logs_recent_lines [['a'], ['b'], ['c']] 2 (by decide)
